import Mathlib

/-!
Shallow embedding of the `SAE_Graphes` repository (files
`Code_python/graphe.py`, `Code_python/algos.py`, `Code_python/reseau.py`).

A weighted graph is represented by its valuation matrix: an `n × n` matrix
whose entries are either a numeric weight or the sentinel `math.inf`
meaning "no edge".  Weights in the source are Python floats with the usual
linear order and addition (`inf + w = inf`, `inf < inf` is false, …); we
embed the weight domain as an arbitrary linearly ordered additive
commutative monoid `α` and the entries as `WithTop α`, with `⊤` standing
for `math.inf`.  Python lists indexed by vertices become functions out of
`Fin n`; in-place assignment becomes `Function.update`.

Loops without a structural bound (`while unvisited:` in Dijkstra, the
breadth-first `while len(file) > 0`) are run on explicit fuel, and lemmas
below show the chosen fuel always lets the loop reach its Python exit
condition, so the fuel never cuts an execution short.

The Python `min(unvisited, key=...)` and iteration over sets of small
non-negative integers follow CPython's set iteration order, which for these
sets is ascending numeric order; we model minimum selection as "smallest
index among the minimisers" and set iteration as ascending order.
-/

section Graphe

variable {α : Type} [LinearOrderedAddCommMonoid α]

/-- A graph object as produced by the constructor `GrapheValue.__init__`:
a size and a valuation matrix (`plus_grosse_cc` returns a fresh one). -/
structure Graphe (α : Type) where
  n : ℕ
  matrice : Fin n → Fin n → WithTop α

namespace GrapheValue

variable {n : ℕ}

/-- `graphe.py`, `nb_sommets`: number of rows of the valuation matrix. -/
def nb_sommets (_g : Fin n → Fin n → WithTop α) : ℕ := n

/-- `graphe.py`, `nb_aretes`: count of the non-`inf` matrix entries, divided
by 2 (Python true division, hence a rational number). -/
def nb_aretes (g : Fin n → Fin n → WithTop α) : ℚ :=
  (((Finset.univ : Finset (Fin n × Fin n)).filter (fun p => g p.1 p.2 ≠ ⊤)).card : ℚ) / 2

/-- `graphe.py`, `degre_sommet`: number of non-`inf` entries of row `s`. -/
def degre_sommet (g : Fin n → Fin n → WithTop α) (s : Fin n) : ℕ :=
  ((Finset.univ : Finset (Fin n)).filter (fun i => g s i ≠ ⊤)).card

/-- `graphe.py`, `degres_sommets`: the list of all vertex degrees. -/
def degres_sommets (g : Fin n → Fin n → WithTop α) : List ℕ :=
  (List.finRange n).map (degre_sommet g)

/-- `graphe.py`, `successeurs`: indices `i` with `matrice[s][i] != inf`,
in increasing order. -/
def successeurs (g : Fin n → Fin n → WithTop α) (s : Fin n) : List (Fin n) :=
  (List.finRange n).filter (fun i => g s i ≠ ⊤)

/-- `graphe.py`, `predecesseurs`: indices `i` with `matrice[i][s] != inf`. -/
def predecesseurs (g : Fin n → Fin n → WithTop α) (s : Fin n) : List (Fin n) :=
  (List.finRange n).filter (fun i => g i s ≠ ⊤)

/-- One step of the inner `for` loop of `descendants` / `ascendants`:
`if succs[i] not in descs: file.append(succs[i]); descs.add(succs[i])`. -/
def bfsPush (dp : List (Fin n) × Finset (Fin n)) (v : Fin n) :
    List (Fin n) × Finset (Fin n) :=
  if v ∈ dp.2 then dp else (dp.1 ++ [v], insert v dp.2)

/-- The `while len(file) > 0` loop shared by `descendants` and `ascendants`.
`next` enumerates the neighbours of the dequeued vertex.  The loop is run on
explicit fuel; `bfsLoop_drains` below shows that from the initial measure
(queue length plus unvisited count) on, adding fuel no longer changes the
result, so fuel `n + 1` never cuts the Python loop short. -/
def bfsLoop (next : Fin n → List (Fin n)) :
    ℕ → List (Fin n) → Finset (Fin n) → Finset (Fin n)
  | 0, _, descs => descs
  | _ + 1, [], descs => descs
  | fuel + 1, scour :: file, descs =>
      let dp := (next scour).foldl bfsPush (file, descs)
      bfsLoop next fuel dp.1 dp.2

/-- `graphe.py`, `descendants`: breadth-first reachable set via successors,
seeded with queue `[s]` and empty visited set. -/
def descendants (g : Fin n → Fin n → WithTop α) (s : Fin n) : Finset (Fin n) :=
  bfsLoop (successeurs g) (n + 1) [s] ∅

/-- `graphe.py`, `ascendants`: breadth-first reachable set via predecessors. -/
def ascendants (g : Fin n → Fin n → WithTop α) (s : Fin n) : Finset (Fin n) :=
  bfsLoop (predecesseurs g) (n + 1) [s] ∅

/-- `graphe.py`, `cfc_sommet`: `descendants(s) ∩ ascendants(s) ∪ {s}` of the
matrix handed in as a parameter. -/
def cfc_sommet (g : Fin n → Fin n → WithTop α) (s : Fin n) : Finset (Fin n) :=
  (descendants g s ∩ ascendants g s) ∪ {s}

/-- `graphe.py`, `graphe_vide`: the all-`inf` matrix. -/
def graphe_vide (α : Type) (n : ℕ) : Fin n → Fin n → WithTop α := fun _ _ => ⊤

/-- One in-place matrix assignment `m[i][j] = v`. -/
def updW (m : Fin n → Fin n → WithTop α) (i j : Fin n) (v : WithTop α) :
    Fin n → Fin n → WithTop α :=
  fun a b => if a = i ∧ b = j then v else m a b

/-- The body of the inner loop of `graphe_symetrique`:
`if matrice[i][j] != inf: sym[i][j] = matrice[i][j]; sym[j][i] = matrice[i][j]`. -/
def symWrite (g : Fin n → Fin n → WithTop α) (i : Fin n)
    (sym : Fin n → Fin n → WithTop α) (j : Fin n) : Fin n → Fin n → WithTop α :=
  if g i j ≠ ⊤ then updW (updW sym i j (g i j)) j i (g i j) else sym

/-- The inner `for j in range(n)` loop of `graphe_symetrique` for row `i`. -/
def symRow (g : Fin n → Fin n → WithTop α)
    (sym : Fin n → Fin n → WithTop α) (i : Fin n) : Fin n → Fin n → WithTop α :=
  (List.finRange n).foldl (symWrite g i) sym

/-- `graphe.py`, `graphe_symetrique`: starting from the empty matrix, for
every `(i, j)` in row-major order with `matrice[i][j] != inf`, assign
`sym[i][j] = sym[j][i] = matrice[i][j]`. -/
def graphe_symetrique (g : Fin n → Fin n → WithTop α) : Fin n → Fin n → WithTop α :=
  (List.finRange n).foldl (symRow g) (graphe_vide α n)

/-- `graphe.py`, `cc_sommet`: strongly-connected component of `s` computed
on the symmetrised matrix. -/
def cc_sommet (g : Fin n → Fin n → WithTop α) (s : Fin n) : Finset (Fin n) :=
  cfc_sommet (graphe_symetrique g) s

/-- `graphe.py`, `cc_graphe`: the list comprehension
`[cc_sommet(s) for s in range(n) if [cc_sommet(t) for t in range(s)].count(cc_sommet(s)) < 1]`. -/
def cc_graphe (g : Fin n → Fin n → WithTop α) : List (Finset (Fin n)) :=
  ((List.finRange n).filter (fun s =>
      decide ((((List.finRange n).take s.val).map (cc_sommet g)).count (cc_sommet g s) < 1))).map
    (cc_sommet g)

/-- `graphe.py`, `est_connexe`: `len(cc_graphe()) == 1`. -/
def est_connexe (g : Fin n → Fin n → WithTop α) : Bool :=
  (cc_graphe g).length == 1

/-- `max(composantes, key=len)`: Python's `max` keeps the first element and
replaces it only when a strictly larger key appears.  It is only ever called
on the non-empty list `cc_graphe` whose members are non-empty, so the `∅`
seed is immediately replaced. -/
def maxByCard (l : List (Finset (Fin n))) : Finset (Fin n) :=
  l.foldl (fun best c => if best.card < c.card then c else best) ∅

/-- The largest connected component picked by `plus_grosse_cc`. -/
def pgComp (g : Fin (n + 1) → Fin (n + 1) → WithTop α) : Finset (Fin (n + 1)) :=
  maxByCard (cc_graphe g)

/-- The members of the largest component in iteration order (ascending, per
CPython set iteration on small integers); `enumerate` over this list is the
renumbering `index_map` of `plus_grosse_cc`. -/
def pgVerts (g : Fin (n + 1) → Fin (n + 1) → WithTop α) : List (Fin (n + 1)) :=
  (List.finRange (n + 1)).filter (fun v => decide (v ∈ pgComp g))

/-- One in-place assignment `mat[new_index][index_map[succ]] = v` of
`plus_grosse_cc`, with the new indices given as plain naturals. -/
def writeCell {k : ℕ} (m : Fin k → Fin k → WithTop α) (i j : ℕ) (v : WithTop α) :
    Fin k → Fin k → WithTop α :=
  fun a b => if a.val = i ∧ b.val = j then v else m a b

/-- `graphe.py`, `plus_grosse_cc`: the largest connected component as a new
graph, vertices renumbered by position in `pgVerts`; for every member `old`
and every successor `succ` of `old` that is also a member, the original
weight is copied to the renumbered cell.  Requires a non-empty graph
(Python's `max` raises on an empty sequence). -/
def plus_grosse_cc (g : Fin (n + 1) → Fin (n + 1) → WithTop α) : Graphe α :=
  ⟨(pgVerts g).length,
    (pgVerts g).foldl
      (fun m old =>
        (successeurs g old).foldl
          (fun m succ =>
            if succ ∈ pgComp g then
              writeCell m ((pgVerts g).indexOf old) ((pgVerts g).indexOf succ) (g old succ)
            else m)
          m)
      (fun _ _ => ⊤)⟩

/-- The original vertex written at renumbered position `a` by
`plus_grosse_cc`: position `a` of the component member list. -/
def vertMap (g : Fin (n + 1) → Fin (n + 1) → WithTop α)
    (a : Fin (plus_grosse_cc g).n) : Fin (n + 1) :=
  (pgVerts g).get (Fin.cast rfl a)

/-- Python sequence indexing with a possibly negative index, as applied to
the rows of the matrix: an index in `[0, n)` is used as is, an index in
`[-n, 0)` wraps around to `n + s`, anything else raises `IndexError`
(modelled as `none`). -/
def pyIndex (n : ℕ) (s : ℤ) : Option (Fin n) :=
  if h : 0 ≤ s ∧ s < n then some ⟨s.toNat, by omega⟩
  else if h2 : -(n : ℤ) ≤ s ∧ s < 0 then some ⟨(s + n).toNat, by omega⟩
  else none

/-- `degre_sommet` as called with an arbitrary Python integer index. -/
def degre_sommet_py (g : Fin n → Fin n → WithTop α) (s : ℤ) : Option ℕ :=
  (pyIndex n s).map (degre_sommet g)

/-- `successeurs` as called with an arbitrary Python integer index: the
loop `for i in range(self.nb_sommets())` only indexes the matrix inside
its body, so on the empty graph the body never runs and every index
answers `[]`; on a non-empty graph the first iteration indexes row `s`,
raising (or wrapping) per Python sequence indexing. -/
def successeurs_py (g : Fin n → Fin n → WithTop α) (s : ℤ) : Option (List (Fin n)) :=
  if n = 0 then some [] else (pyIndex n s).map (successeurs g)

/-- `predecesseurs` as called with an arbitrary Python integer index; the
same empty-graph behaviour as `successeurs_py`. -/
def predecesseurs_py (g : Fin n → Fin n → WithTop α) (s : ℤ) : Option (List (Fin n)) :=
  if n = 0 then some [] else (pyIndex n s).map (predecesseurs g)

/-- Reachability along edges of the matrix, the specification-side notion
used to state which vertices Dijkstra must leave at `inf`. -/
def Reachable (g : Fin n → Fin n → WithTop α) (s v : Fin n) : Prop :=
  Relation.ReflTransGen (fun a b => g a b ≠ ⊤) s v

end GrapheValue

end Graphe

section Algos

open GrapheValue

variable {α : Type} [LinearOrderedAddCommMonoid α] {n : ℕ}

namespace AlgoDijkstra

/-- The state of the `while unvisited:` loop of
`AlgoDijkstra.calculPCCSommet`: the `distances` and `predecesseurs` arrays
and the `unvisited` set. -/
structure DState (α : Type) (n : ℕ) where
  dist : Fin n → WithTop α
  pred : Fin n → Option (Fin n)
  unvisited : Finset (Fin n)

/-- `min(unvisited, key=lambda node: distances[node])`: the smallest-index
vertex of `unvisited` whose tentative distance is minimal. -/
def selectMin (dist : Fin n → WithTop α) (uv : Finset (Fin n)) (h : uv.Nonempty) : Fin n :=
  (uv.filter (fun v => ∀ u ∈ uv, dist v ≤ dist u)).min' (by
    obtain ⟨b, hb, hmin⟩ := Finset.exists_min_image uv dist h
    exact ⟨b, Finset.mem_filter.2 ⟨hb, hmin⟩⟩)

/-- The body of the `for neighbour in range(n)` relaxation loop:
if there is an edge and `distances[current] + weight` improves on
`distances[neighbour]`, update distance and predecessor. -/
def relaxStep (g : Fin n → Fin n → WithTop α) (current : Fin n)
    (dp : (Fin n → WithTop α) × (Fin n → Option (Fin n))) (neighbour : Fin n) :
    (Fin n → WithTop α) × (Fin n → Option (Fin n)) :=
  if g current neighbour ≠ ⊤ then
    if dp.1 current + g current neighbour < dp.1 neighbour then
      (Function.update dp.1 neighbour (dp.1 current + g current neighbour),
       Function.update dp.2 neighbour (some current))
    else dp
  else dp

/-- The whole `for neighbour in range(n)` loop. -/
def relaxAll (g : Fin n → Fin n → WithTop α) (current : Fin n)
    (dp : (Fin n → WithTop α) × (Fin n → Option (Fin n))) :
    (Fin n → WithTop α) × (Fin n → Option (Fin n)) :=
  (List.finRange n).foldl (relaxStep g current) dp

/-- One iteration of the `while unvisited:` loop: select the minimum,
remove it from `unvisited`, relax all its neighbours. -/
def dijkstraVisit (g : Fin n → Fin n → WithTop α) (st : DState α n)
    (h : st.unvisited.Nonempty) : DState α n :=
  let current := selectMin st.dist st.unvisited h
  let dp := relaxAll g current (st.dist, st.pred)
  ⟨dp.1, dp.2, st.unvisited.erase current⟩

/-- The `while unvisited:` loop on explicit fuel; `dijkstraLoop_drains`
below shows that fuel `n` always empties `unvisited`, so the fuel never
cuts the Python loop short. -/
def dijkstraLoop (g : Fin n → Fin n → WithTop α) : ℕ → DState α n → DState α n
  | 0, st => st
  | fuel + 1, st =>
      if h : st.unvisited.Nonempty then dijkstraLoop g fuel (dijkstraVisit g st h) else st

/-- Number of iterations the `while unvisited:` loop performs. -/
def dijkstraSteps (g : Fin n → Fin n → WithTop α) : ℕ → DState α n → ℕ
  | 0, _ => 0
  | fuel + 1, st =>
      if h : st.unvisited.Nonempty then dijkstraSteps g fuel (dijkstraVisit g st h) + 1 else 0

/-- The initial state of `calculPCCSommet`:
`distances = [inf] * n; distances[s] = 0; predecesseurs = [None] * n;
unvisited = set(range(n))`. -/
def dijkstraInit (s : Fin n) : DState α n :=
  ⟨Function.update (fun _ => (⊤ : WithTop α)) s 0, fun _ => none, Finset.univ⟩

/-- The state on exit of the `while unvisited:` loop of `calculPCCSommet`. -/
def dijkstraFinal (g : Fin n → Fin n → WithTop α) (s : Fin n) : DState α n :=
  dijkstraLoop g n (dijkstraInit s)

/-- `algos.py`, `AlgoDijkstra.calculPCCSommet`: the returned pair
`(distances, predecesseurs)` of length-`n` lists. -/
def calculPCCSommet (g : Fin n → Fin n → WithTop α) (s : Fin n) :
    List (WithTop α) × List (Option (Fin n)) :=
  (List.ofFn (dijkstraFinal g s).dist, List.ofFn (dijkstraFinal g s).pred)

/-- `algos.py`, `AlgoDijkstra.calculPCCTousSommets`: one row per source, in
increasing source order. -/
def calculPCCTousSommets (g : Fin n → Fin n → WithTop α) :
    List (List (WithTop α)) × List (List (Option (Fin n))) :=
  ((List.finRange n).map (fun s => (calculPCCSommet g s).1),
   (List.finRange n).map (fun s => (calculPCCSommet g s).2))

/-- The path obtained by following predecessor pointers back from a vertex:
`PredPath g pred s v d` holds when the pointer chain from `v` reaches `s`,
every hop is an actual edge of `g`, and the edge weights of the chain sum
to `d`. -/
inductive PredPath (g : Fin n → Fin n → WithTop α) (pred : Fin n → Option (Fin n))
    (s : Fin n) : Fin n → WithTop α → Prop
  | source : PredPath g pred s s 0
  | step : ∀ {u v : Fin n} {d : WithTop α}, PredPath g pred s u d →
      pred v = some u → g u v ≠ ⊤ → PredPath g pred s v (d + g u v)

/-- Invariant tying finite tentative distances to reachability, and `inf`
distances to an untouched predecessor entry.  It holds for all weights,
negative ones included. -/
def ReachInv (g : Fin n → Fin n → WithTop α) (s : Fin n)
    (dp : (Fin n → WithTop α) × (Fin n → Option (Fin n))) : Prop :=
  (∀ v, dp.1 v ≠ ⊤ → GrapheValue.Reachable g s v) ∧ (∀ v, dp.1 v = ⊤ → dp.2 v = none)

/-- The main loop invariant of Dijkstra's algorithm under non-negative
weights, strong enough to retrace predecessor chains: the source keeps
distance 0 and no predecessor; distances are non-negative; visited
(popped) vertices have minimal distances; every finite-distance vertex
other than the source records a visited predecessor through an actual
edge, with exact distance bookkeeping; `inf`-distance vertices have no
predecessor; and predecessor pointers are acyclic (ranked). -/
structure DInv (g : Fin n → Fin n → WithTop α) (s : Fin n) (st : DState α n) : Prop where
  dist_s : st.dist s = 0
  pred_s : st.pred s = none
  nonneg : ∀ v, 0 ≤ st.dist v
  popped_le : ∀ u, u ∉ st.unvisited → ∀ x ∈ st.unvisited, st.dist u ≤ st.dist x
  pred_spec : ∀ v, v ≠ s → st.dist v ≠ ⊤ →
      ∃ u, st.pred v = some u ∧ u ∉ st.unvisited ∧ g u v ≠ ⊤ ∧ st.dist v = st.dist u + g u v
  pred_none : ∀ v, st.dist v = ⊤ → st.pred v = none
  rank : ∃ r : Fin n → ℕ, ∀ v u, st.pred v = some u → r u < r v

/-- The invariant maintained along the relaxation loop of one visit:
`d0` is the distance array at the start of the visit and `uv1` the
unvisited set right after removing the current vertex. -/
structure RelaxInv (g : Fin n → Fin n → WithTop α) (s : Fin n) (d0 : Fin n → WithTop α)
    (uv1 : Finset (Fin n)) (dp : (Fin n → WithTop α) × (Fin n → Option (Fin n))) : Prop where
  dist_s : dp.1 s = 0
  pred_s : dp.2 s = none
  nonneg : ∀ v, 0 ≤ dp.1 v
  frozen : ∀ u, u ∉ uv1 → dp.1 u = d0 u
  popped_le : ∀ u, u ∉ uv1 → ∀ x ∈ uv1, dp.1 u ≤ dp.1 x
  pred_spec : ∀ v, v ≠ s → dp.1 v ≠ ⊤ →
      ∃ u, dp.2 v = some u ∧ u ∉ uv1 ∧ g u v ≠ ⊤ ∧ dp.1 v = dp.1 u + g u v
  pred_none : ∀ v, dp.1 v = ⊤ → dp.2 v = none
  rank : ∃ r : Fin n → ℕ, ∀ v u, dp.2 v = some u → r u < r v

end AlgoDijkstra

end Algos

section Reseau

open GrapheValue AlgoDijkstra

variable {α : Type} [LinearOrderedAddCommMonoid α] {n : ℕ}

namespace ReseauSocial

/-- `reseau.py`, `ReseauSocial.diametre`: starting from `max_distance = 0`,
for each source `s` take the maximum with `max(distances)` over the whole
Dijkstra distance row, `inf` entries included. -/
def diametre (g : Fin n → Fin n → WithTop α) : WithTop α :=
  (List.finRange n).foldl
    (fun md s => max md (((calculPCCSommet g s).1).max?.getD 0)) 0

end ReseauSocial

end Reseau

section Concrete

open GrapheValue AlgoDijkstra ReseauSocial

/-- The 7-vertex unit-weight matrix used in the `__main__` blocks of
`algos.py` and `reseau.py`: undirected edges
`{0-1, 0-3, 1-2, 1-3, 2-3, 2-4, 3-4, 4-5, 5-6}`, weight 1 each. -/
def matG7 : Fin 7 → Fin 7 → WithTop ℤ :=
  ![![⊤, 1, ⊤, 1, ⊤, ⊤, ⊤],
    ![1, ⊤, 1, 1, ⊤, ⊤, ⊤],
    ![⊤, 1, ⊤, 1, 1, ⊤, ⊤],
    ![1, 1, 1, ⊤, 1, ⊤, ⊤],
    ![⊤, ⊤, 1, 1, ⊤, 1, ⊤],
    ![⊤, ⊤, ⊤, ⊤, 1, ⊤, 1],
    ![⊤, ⊤, ⊤, ⊤, ⊤, 1, ⊤]]

/-- A two-vertex graph with the single directed edge `0 → 1` of weight 1. -/
def matEdge2 : Fin 2 → Fin 2 → WithTop ℤ :=
  ![![⊤, 1], ![⊤, ⊤]]

/-- A two-vertex graph with no edges at all. -/
def matDisc2 : Fin 2 → Fin 2 → WithTop ℤ :=
  ![![⊤, ⊤], ![⊤, ⊤]]

/-- The 4-vertex graph of the specification's second concrete scenario:
a unit-weight triangle `0-1-2` and an isolated vertex `3`. -/
def matTri4 : Fin 4 → Fin 4 → WithTop ℤ :=
  ![![⊤, 1, 1, ⊤], ![1, ⊤, 1, ⊤], ![1, 1, ⊤, ⊤], ![⊤, ⊤, ⊤, ⊤]]

/-- A symmetric two-vertex matrix, for the symmetrisation round-trip. -/
def matSym2 : Fin 2 → Fin 2 → WithTop ℤ :=
  ![![⊤, 1], ![1, ⊤]]

/-- The empty graph: a 0 × 0 matrix, the degenerate case of `graphe.py`'s
own `__main__` examples. -/
def matEmpty0 : Fin 0 → Fin 0 → WithTop ℤ :=
  fun i _ => i.elim0


end Concrete

section Helpers

open GrapheValue AlgoDijkstra ReseauSocial

variable {α : Type} [LinearOrderedAddCommMonoid α] {n : ℕ}

/-- Folding a step function that preserves a predicate preserves it. -/
theorem foldl_preserve {β γ : Type _} (P : β → Prop) (f : β → γ → β)
    (hf : ∀ b a, P b → P (f b a)) : ∀ (l : List γ) (b : β), P b → P (l.foldl f b)
  | [], _, hb => hb
  | a :: l, b, hb => foldl_preserve P f hf l (f b a) (hf b a hb)

theorem selectMin_mem (dist : Fin n → WithTop α) (uv : Finset (Fin n)) (h : uv.Nonempty) :
    selectMin dist uv h ∈ uv := by
  have hm : selectMin dist uv h ∈ uv.filter (fun v => ∀ u ∈ uv, dist v ≤ dist u) :=
    Finset.min'_mem _ _
  exact (Finset.mem_filter.1 hm).1

theorem selectMin_min (dist : Fin n → WithTop α) (uv : Finset (Fin n)) (h : uv.Nonempty) :
    ∀ x ∈ uv, dist (selectMin dist uv h) ≤ dist x := by
  have hm : selectMin dist uv h ∈ uv.filter (fun v => ∀ u ∈ uv, dist v ≤ dist u) :=
    Finset.min'_mem _ _
  exact (Finset.mem_filter.1 hm).2

theorem dijkstraVisit_unvisited (g : Fin n → Fin n → WithTop α) (st : DState α n)
    (h : st.unvisited.Nonempty) :
    (dijkstraVisit g st h).unvisited = st.unvisited.erase (selectMin st.dist st.unvisited h) :=
  rfl

theorem dijkstraVisit_card (g : Fin n → Fin n → WithTop α) (st : DState α n)
    (h : st.unvisited.Nonempty) :
    (dijkstraVisit g st h).unvisited.card + 1 = st.unvisited.card := by
  rw [dijkstraVisit_unvisited, Finset.card_erase_of_mem (selectMin_mem _ _ _)]
  exact Nat.succ_pred_eq_of_pos (Finset.card_pos.2 h)

theorem dijkstraSteps_eq (g : Fin n → Fin n → WithTop α) :
    ∀ (fuel : ℕ) (st : DState α n), st.unvisited.card ≤ fuel →
      dijkstraSteps g fuel st = st.unvisited.card
  | 0, st, hle => by
      rw [dijkstraSteps]
      omega
  | fuel + 1, st, hle => by
      rw [dijkstraSteps]
      split
      next h =>
        have hc := dijkstraVisit_card g st h
        rw [dijkstraSteps_eq g fuel _ (by omega)]
        omega
      next h =>
        have : st.unvisited = ∅ := Finset.not_nonempty_iff_eq_empty.1 h
        simp [this]

theorem dijkstraLoop_drains (g : Fin n → Fin n → WithTop α) :
    ∀ (fuel : ℕ) (st : DState α n), st.unvisited.card ≤ fuel →
      (dijkstraLoop g fuel st).unvisited = ∅
  | 0, st, hle => by
      rw [dijkstraLoop]
      exact Finset.card_eq_zero.1 (by omega)
  | fuel + 1, st, hle => by
      rw [dijkstraLoop]
      split
      next h =>
        have hc := dijkstraVisit_card g st h
        exact dijkstraLoop_drains g fuel _ (by omega)
      next h => exact Finset.not_nonempty_iff_eq_empty.1 h

theorem dijkstraLoop_preserve (g : Fin n → Fin n → WithTop α) (P : DState α n → Prop)
    (hP : ∀ st h, P st → P (dijkstraVisit g st h)) :
    ∀ (fuel : ℕ) (st : DState α n), P st → P (dijkstraLoop g fuel st)
  | 0, _, hst => hst
  | fuel + 1, st, hst => by
      rw [dijkstraLoop]
      split
      next h => exact dijkstraLoop_preserve g P hP fuel _ (hP st h hst)
      next h => exact hst

end Helpers

section ClaimsEasy

open GrapheValue AlgoDijkstra ReseauSocial

variable {α : Type} [LinearOrderedAddCommMonoid α] {n : ℕ}

/-- Claim C10: for every graph with an `n × n` matrix and every source
`s`, the Dijkstra main loop terminates after exactly `n` iterations,
each iteration removes exactly one vertex from the unvisited set, the
loop ends with the unvisited set empty, and both returned lists have
length `n`. -/
theorem dijkstra_terminaison (g : Fin n → Fin n → WithTop α) (s : Fin n) :
    dijkstraSteps g n (dijkstraInit s) = n ∧
    (∀ (st : DState α n) (h : st.unvisited.Nonempty),
        (dijkstraVisit g st h).unvisited.card + 1 = st.unvisited.card) ∧
    (dijkstraFinal g s).unvisited = ∅ ∧
    (calculPCCSommet g s).1.length = n ∧ (calculPCCSommet g s).2.length = n := by
  have hcard : (dijkstraInit s : DState α n).unvisited.card = n := by
    simp [dijkstraInit]
  refine ⟨?_, fun st h => dijkstraVisit_card g st h, ?_, ?_, ?_⟩
  · rw [dijkstraSteps_eq g n _ (le_of_eq hcard), hcard]
  · exact dijkstraLoop_drains g n _ (le_of_eq hcard)
  · simp [calculPCCSommet]
  · simp [calculPCCSommet]

/-- Witness for C10 on the concrete two-vertex graph with edge `0 → 1`. -/
theorem dijkstra_terminaison_witness :
    dijkstraSteps matEdge2 2 (dijkstraInit 0) = 2 ∧
    (dijkstraVisit matEdge2 (dijkstraInit 0) (by decide)).unvisited.card + 1
      = (dijkstraInit (0 : Fin 2) : DState ℤ 2).unvisited.card ∧
    (calculPCCSommet matEdge2 0).1.length = 2 :=
  ⟨(dijkstra_terminaison matEdge2 0).1,
   (dijkstra_terminaison matEdge2 0).2.1 (dijkstraInit 0) (by decide),
   (dijkstra_terminaison matEdge2 0).2.2.2.1⟩

/-- Claim C4: row `s` of the all-pairs result (both the distance matrix and
the predecessor matrix) is exactly the pair of vectors computed by the
single-source routine for source `s`. -/
theorem calculPCCTousSommets_ligne (g : Fin n → Fin n → WithTop α) (s : Fin n) :
    (calculPCCTousSommets g).1[s.val]? = some (calculPCCSommet g s).1 ∧
    (calculPCCTousSommets g).2[s.val]? = some (calculPCCSommet g s).2 := by
  have hfr : (List.finRange n)[s.val]? = some s := by
    rw [List.getElem?_eq_getElem (by simp)]
    simp
  constructor <;> simp [calculPCCTousSommets, hfr]

theorem pyIndex_none_iff (n : ℕ) (s : ℤ) :
    pyIndex n s = none ↔ s < -(n : ℤ) ∨ (n : ℤ) ≤ s := by
  unfold pyIndex
  split_ifs with h1 h2
  · exact iff_of_false (by simp) (by omega)
  · exact iff_of_false (by simp) (by omega)
  · exact iff_of_true rfl (by omega)

theorem pyIndex_fin (v : Fin n) : pyIndex n (v : ℤ) = some v := by
  have hv := v.isLt
  unfold pyIndex
  rw [dif_pos (by constructor <;> omega)]
  simp [Fin.ext_iff]

theorem pyIndex_neg (v : Fin n) : pyIndex n ((v : ℤ) - n) = some v := by
  have hv := v.isLt
  unfold pyIndex
  rw [dif_neg (by omega), dif_pos (by constructor <;> omega)]
  simp only [Option.some.injEq, Fin.ext_iff]
  omega

/-- Claim C6 (amended): the degree query raises `IndexError` exactly when
the integer index is `< -n` or `≥ n` (on the empty graph that is every
index, since it indexes the matrix row to compute its length); the
successors and predecessors queries raise exactly when the graph is
non-empty and the index is `< -n` or `≥ n`, and on the empty graph answer
`[]` for every index because their loop never touches the matrix; a
negative index in `[-n, -1]` is answered, as the query on vertex `n + s`
(Python wrap-around), not rejected. -/
theorem sommet_indexation (g : Fin n → Fin n → WithTop α) (s : ℤ) :
    (degre_sommet_py g s = none ↔ s < -(n : ℤ) ∨ (n : ℤ) ≤ s) ∧
    (successeurs_py g s = none ↔ 0 < n ∧ (s < -(n : ℤ) ∨ (n : ℤ) ≤ s)) ∧
    (predecesseurs_py g s = none ↔ 0 < n ∧ (s < -(n : ℤ) ∨ (n : ℤ) ≤ s)) ∧
    (n = 0 → successeurs_py g s = some [] ∧ predecesseurs_py g s = some []) ∧
    (∀ v : Fin n,
      degre_sommet_py g ((v : ℤ) - n) = some (degre_sommet g v) ∧
      successeurs_py g ((v : ℤ) - n) = some (successeurs g v) ∧
      predecesseurs_py g ((v : ℤ) - n) = some (predecesseurs g v)) := by
  refine ⟨?_, ?_, ?_, ?_, ?_⟩
  · simp [degre_sommet_py, Option.map_eq_none', pyIndex_none_iff]
  · unfold successeurs_py
    by_cases hn : n = 0
    · rw [if_pos hn]
      exact iff_of_false (by simp) (by omega)
    · rw [if_neg hn, Option.map_eq_none', pyIndex_none_iff]
      exact ⟨fun h => ⟨Nat.pos_of_ne_zero hn, h⟩, fun h => h.2⟩
  · unfold predecesseurs_py
    by_cases hn : n = 0
    · rw [if_pos hn]
      exact iff_of_false (by simp) (by omega)
    · rw [if_neg hn, Option.map_eq_none', pyIndex_none_iff]
      exact ⟨fun h => ⟨Nat.pos_of_ne_zero hn, h⟩, fun h => h.2⟩
  · intro hn
    constructor
    · unfold successeurs_py
      rw [if_pos hn]
    · unfold predecesseurs_py
      rw [if_pos hn]
  · intro v
    have hn : n ≠ 0 := by
      have := v.isLt
      omega
    refine ⟨?_, ?_, ?_⟩
    · simp [degre_sommet_py, pyIndex_neg]
    · unfold successeurs_py
      rw [if_neg hn, pyIndex_neg]
      rfl
    · unfold predecesseurs_py
      rw [if_neg hn, pyIndex_neg]
      rfl

/-- Witness for the amended C6: on the empty graph the successor and
predecessor queries answer `[]` at the (out-of-range) index 5 instead of
raising. -/
theorem sommet_indexation_witness :
    successeurs_py matEmpty0 5 = some [] ∧ predecesseurs_py matEmpty0 5 = some [] :=
  (sommet_indexation matEmpty0 5).2.2.2.1 rfl

/-- Counterexample for C6 as frozen: on the 7-vertex demo graph, the degree
query with the negative index `-1` answers (degree of vertex 6) instead of
raising. -/
theorem sommet_indexation_contre : degre_sommet_py matG7 (-1) = some 1 := by
  decide

end ClaimsEasy

section ClaimsReach

open GrapheValue AlgoDijkstra

variable {α : Type} [LinearOrderedAddCommMonoid α] {n : ℕ}

theorem relaxStep_reach (g : Fin n → Fin n → WithTop α) (s current : Fin n)
    (dp : (Fin n → WithTop α) × (Fin n → Option (Fin n))) (nb : Fin n)
    (h : ReachInv g s dp) : ReachInv g s (relaxStep g current dp nb) := by
  unfold relaxStep
  split_ifs with hedge hlt
  · refine ⟨?_, ?_⟩
    · intro v hv
      dsimp only at hv
      by_cases hvnb : v = nb
      · subst hvnb
        rw [Function.update_same] at hv
        have hcur : dp.1 current ≠ ⊤ := fun hc => hv (by rw [hc, top_add])
        exact Relation.ReflTransGen.tail (h.1 current hcur) hedge
      · rw [Function.update_noteq hvnb] at hv
        exact h.1 v hv
    · intro v hv
      dsimp only at hv ⊢
      by_cases hvnb : v = nb
      · subst hvnb
        rw [Function.update_same] at hv
        exact absurd hv (ne_top_of_lt hlt)
      · rw [Function.update_noteq hvnb] at hv
        rw [Function.update_noteq hvnb]
        exact h.2 v hv
  · exact h
  · exact h

theorem dijkstraVisit_reach (g : Fin n → Fin n → WithTop α) (s : Fin n)
    (st : DState α n) (h : st.unvisited.Nonempty)
    (hr : ReachInv g s (st.dist, st.pred)) :
    ReachInv g s ((dijkstraVisit g st h).dist, (dijkstraVisit g st h).pred) := by
  have : ReachInv g s (relaxAll g (selectMin st.dist st.unvisited h) (st.dist, st.pred)) :=
    foldl_preserve (ReachInv g s) _
      (fun dp nb hdp => relaxStep_reach g s _ dp nb hdp) (List.finRange n) _ hr
  exact this

theorem dijkstraInit_reach (g : Fin n → Fin n → WithTop α) (s : Fin n) :
    ReachInv g s ((dijkstraInit s : DState α n).dist, (dijkstraInit s : DState α n).pred) := by
  refine ⟨?_, fun v _ => rfl⟩
  intro v hv
  dsimp only [dijkstraInit] at hv
  by_cases hvs : v = s
  · subst hvs
    exact Relation.ReflTransGen.refl
  · rw [Function.update_noteq hvs] at hv
    exact absurd rfl hv

/-- Claim C3: for every graph (any weights) and source `s`, every vertex
`v` not reachable from `s` ends with `distance[v] = inf` and
`predecessor[v] = None`. -/
theorem dijkstra_inaccessible (g : Fin n → Fin n → WithTop α) (s v : Fin n)
    (hnr : ¬ Reachable g s v) :
    (dijkstraFinal g s).dist v = ⊤ ∧ (dijkstraFinal g s).pred v = none := by
  have hinv : ReachInv g s ((dijkstraFinal g s).dist, (dijkstraFinal g s).pred) :=
    dijkstraLoop_preserve g (fun st => ReachInv g s (st.dist, st.pred))
      (fun st h hp => dijkstraVisit_reach g s st h hp) n (dijkstraInit s)
      (dijkstraInit_reach g s)
  have hd : (dijkstraFinal g s).dist v = ⊤ := by
    by_contra hne
    exact hnr (hinv.1 v hne)
  exact ⟨hd, hinv.2 v hd⟩

/-- Witness for C3 on the two-vertex edgeless graph. -/
theorem dijkstra_inaccessible_witness :
    ¬ Reachable matDisc2 0 1 ∧
    (dijkstraFinal matDisc2 0).dist 1 = ⊤ ∧ (dijkstraFinal matDisc2 0).pred 1 = none := by
  have hnr : ¬ Reachable matDisc2 0 1 := by
    intro h
    have h2 : Relation.ReflTransGen (fun a b => matDisc2 a b ≠ ⊤) 0 1 := h
    have hall : ∀ c : Fin 2, matDisc2 c 1 = ⊤ := by decide
    rcases Relation.ReflTransGen.cases_tail h2 with heq | ⟨c, _, hedge⟩
    · exact absurd heq (by decide)
    · exact hedge (hall c)
  exact ⟨hnr, dijkstra_inaccessible matDisc2 0 1 hnr⟩

end ClaimsReach

section ClaimsSym

open GrapheValue

variable {α : Type} [LinearOrderedAddCommMonoid α] {n : ℕ}

theorem updW_apply (m : Fin n → Fin n → WithTop α) (i j : Fin n) (v : WithTop α)
    (a b : Fin n) : updW m i j v a b = if a = i ∧ b = j then v else m a b :=
  rfl

theorem symWrite_apply (g : Fin n → Fin n → WithTop α) (i : Fin n)
    (sym : Fin n → Fin n → WithTop α) (j a b : Fin n) :
    symWrite g i sym j a b =
      if g i j ≠ ⊤ then updW (updW sym i j (g i j)) j i (g i j) a b else sym a b := by
  unfold symWrite
  split <;> rfl

theorem symWrite_pg (g : Fin n → Fin n → WithTop α) (hsym : ∀ i j, g i j = g j i)
    (a b i j : Fin n) (sym : Fin n → Fin n → WithTop α) (hval : sym a b = g a b) :
    symWrite g i sym j a b = g a b := by
  rw [symWrite_apply, updW_apply, updW_apply]
  split_ifs with hedge h1 h2
  · obtain ⟨rfl, rfl⟩ := h1
    exact hsym b a
  · obtain ⟨rfl, rfl⟩ := h2
    rfl
  · exact hval
  · exact hval

theorem symWrite_top (g : Fin n → Fin n → WithTop α) (hsym : ∀ i j, g i j = g j i)
    (a b i j : Fin n) (sym : Fin n → Fin n → WithTop α) (htop : g a b = ⊤)
    (hcell : sym a b = ⊤) : symWrite g i sym j a b = ⊤ := by
  rw [symWrite_apply, updW_apply, updW_apply]
  split_ifs with hedge h1 h2
  · obtain ⟨rfl, rfl⟩ := h1
    exact (hsym b a).trans htop
  · obtain ⟨rfl, rfl⟩ := h2
    exact htop
  · exact hcell
  · exact hcell

theorem symRow_writes (g : Fin n → Fin n → WithTop α) (hsym : ∀ i j, g i j = g j i)
    (a b : Fin n) (hedge : g a b ≠ ⊤) (sym : Fin n → Fin n → WithTop α) :
    symRow g sym a a b = g a b := by
  obtain ⟨m1, m2, hm⟩ := List.append_of_mem (List.mem_finRange b)
  rw [symRow, hm, List.foldl_append, List.foldl_cons]
  apply foldl_preserve (fun sym => sym a b = g a b) (symWrite g a)
    (fun sym j h => symWrite_pg g hsym a b a j sym h) m2
  rw [symWrite_apply, updW_apply, updW_apply, if_pos hedge]
  by_cases hba : a = b ∧ b = a
  · rw [if_pos hba]
  · rw [if_neg hba, if_pos ⟨rfl, rfl⟩]

/-- Claim C9: symmetrisation applied to an already-symmetric matrix returns
a matrix equal entry-for-entry to the original. -/
theorem graphe_symetrique_identite (g : Fin n → Fin n → WithTop α)
    (hsym : ∀ i j, g i j = g j i) :
    ∀ a b, graphe_symetrique g a b = g a b := by
  intro a b
  by_cases hedge : g a b = ⊤
  · have htop : graphe_symetrique g a b = ⊤ := by
      apply foldl_preserve (fun sym => sym a b = ⊤) (symRow g) ?_ (List.finRange n) _ rfl
      intro sym i h
      exact foldl_preserve (fun sym => sym a b = ⊤) (symWrite g i)
        (fun sym j hc => symWrite_top g hsym a b i j sym hedge hc) (List.finRange n) sym h
    rw [htop, hedge]
  · obtain ⟨l1, l2, hl⟩ := List.append_of_mem (List.mem_finRange a)
    rw [graphe_symetrique, hl, List.foldl_append, List.foldl_cons]
    apply foldl_preserve (fun sym => sym a b = g a b) (symRow g) ?_ l2
    · exact symRow_writes g hsym a b hedge _
    · intro sym i h
      exact foldl_preserve (fun sym => sym a b = g a b) (symWrite g i)
        (fun sym j hc => symWrite_pg g hsym a b i j sym hc) (List.finRange n) sym h

/-- Witness for C9 on a concrete symmetric two-vertex matrix. -/
theorem graphe_symetrique_identite_witness :
    (∀ i j, matSym2 i j = matSym2 j i) ∧
    ∀ a b, graphe_symetrique matSym2 a b = matSym2 a b :=
  ⟨by decide, graphe_symetrique_identite matSym2 (by decide)⟩

end ClaimsSym

section ClaimsScenario

open GrapheValue AlgoDijkstra

/-- Claim C2: on the concrete 7-vertex unit-weight graph, the shortest
distance from vertex 0 to vertex 6 is 4, vertex 3 has degree 4, there are
9 edges, and the graph is connected. -/
theorem scenario_sept_sommets :
    (dijkstraFinal matG7 0).dist 6 = 4 ∧
    degre_sommet matG7 3 = 4 ∧
    nb_aretes matG7 = 9 ∧
    est_connexe matG7 = true := by
  refine ⟨by decide, by decide, ?_, by decide⟩
  have hc : ((Finset.univ : Finset (Fin 7 × Fin 7)).filter
      (fun p => matG7 p.1 p.2 ≠ ⊤)).card = 18 := by decide
  unfold nb_aretes
  rw [hc]
  norm_num

end ClaimsScenario

section ClaimsDijkstra

open GrapheValue AlgoDijkstra

variable {α : Type} [LinearOrderedAddCommMonoid α] {n : ℕ}

theorem relaxStep_dinv (g : Fin n → Fin n → WithTop α) (s current : Fin n)
    (hw : ∀ i j, (0 : WithTop α) ≤ g i j)
    (d0 : Fin n → WithTop α) (uv0 : Finset (Fin n))
    (hcm : current ∈ uv0)
    (hmin : ∀ x ∈ uv0, d0 current ≤ d0 x)
    (hple : ∀ u, u ∉ uv0 → ∀ x ∈ uv0, d0 u ≤ d0 x)
    (dp : (Fin n → WithTop α) × (Fin n → Option (Fin n))) (nb : Fin n)
    (hJ : RelaxInv g s d0 (uv0.erase current) dp) :
    RelaxInv g s d0 (uv0.erase current) (relaxStep g current dp nb) := by
  have hcur1 : current ∉ uv0.erase current := Finset.not_mem_erase _ _
  unfold relaxStep
  split_ifs with hedge hlt
  · have hnn_alt : (0 : WithTop α) ≤ dp.1 current + g current nb :=
      add_nonneg (hJ.nonneg current) (hw current nb)
    have halt_ge : dp.1 current ≤ dp.1 current + g current nb :=
      le_add_of_nonneg_right (hw current nb)
    have hnb1 : nb ∈ uv0.erase current := by
      by_contra hnb
      have hcases : nb = current ∨ nb ∉ uv0 := by
        by_cases h : nb = current
        · exact Or.inl h
        · exact Or.inr (fun hmem => hnb (Finset.mem_erase.2 ⟨h, hmem⟩))
      rcases hcases with rfl | h
      · exact absurd hlt (not_lt.2 halt_ge)
      · have hle : dp.1 nb ≤ dp.1 current + g current nb := by
          calc dp.1 nb = d0 nb := hJ.frozen nb hnb
            _ ≤ d0 current := hple nb h current hcm
            _ = dp.1 current := (hJ.frozen current hcur1).symm
            _ ≤ dp.1 current + g current nb := halt_ge
        exact absurd hlt (not_lt.2 hle)
    have hnbs : nb ≠ s := by
      intro h
      subst h
      rw [hJ.dist_s] at hlt
      exact absurd hlt (not_lt.2 hnn_alt)
    have hnbc : nb ≠ current := fun h => hcur1 (h ▸ hnb1)
    refine ⟨?_, ?_, ?_, ?_, ?_, ?_, ?_, ?_⟩
    · show Function.update dp.1 nb _ s = 0
      rw [Function.update_noteq (Ne.symm hnbs)]
      exact hJ.dist_s
    · show Function.update dp.2 nb _ s = none
      rw [Function.update_noteq (Ne.symm hnbs)]
      exact hJ.pred_s
    · intro v
      show (0 : WithTop α) ≤ Function.update dp.1 nb _ v
      by_cases hv : v = nb
      · subst hv
        rw [Function.update_same]
        exact hnn_alt
      · rw [Function.update_noteq hv]
        exact hJ.nonneg v
    · intro u hu
      show Function.update dp.1 nb _ u = d0 u
      have hun : u ≠ nb := fun he => hu (he ▸ hnb1)
      rw [Function.update_noteq hun]
      exact hJ.frozen u hu
    · intro u hu x hx
      have hun : u ≠ nb := fun he => hu (he ▸ hnb1)
      show Function.update dp.1 nb _ u ≤ Function.update dp.1 nb _ x
      rw [Function.update_noteq hun]
      by_cases hxnb : x = nb
      · rw [hxnb, Function.update_same]
        by_cases huc : u = current
        · subst huc
          exact halt_ge
        · have hu0 : u ∉ uv0 := fun hm => hu (Finset.mem_erase.2 ⟨huc, hm⟩)
          calc dp.1 u = d0 u := hJ.frozen u hu
            _ ≤ d0 current := hple u hu0 current hcm
            _ = dp.1 current := (hJ.frozen current hcur1).symm
            _ ≤ dp.1 current + g current nb := halt_ge
      · rw [Function.update_noteq hxnb]
        exact hJ.popped_le u hu x hx
    · intro v hvs hvfin
      by_cases hv : v = nb
      · refine ⟨current, ?_, hcur1, ?_, ?_⟩
        · show Function.update dp.2 nb _ v = some current
          rw [hv, Function.update_same]
        · rw [hv]
          exact hedge
        · show Function.update dp.1 nb _ v
            = Function.update dp.1 nb _ current + g current v
          rw [hv, Function.update_same, Function.update_noteq (Ne.symm hnbc)]
      · replace hvfin : dp.1 v ≠ ⊤ := by
          rw [show (Function.update dp.1 nb (dp.1 current + g current nb),
              Function.update dp.2 nb (some current)).1 v = dp.1 v from
            Function.update_noteq hv _ _] at hvfin
          exact hvfin
        obtain ⟨u, hpu, hu1, hge, heq⟩ := hJ.pred_spec v hvs hvfin
        have hun : u ≠ nb := fun he => hu1 (he ▸ hnb1)
        refine ⟨u, ?_, hu1, hge, ?_⟩
        · show Function.update dp.2 nb _ v = some u
          rw [Function.update_noteq hv]
          exact hpu
        · show Function.update dp.1 nb _ v = Function.update dp.1 nb _ u + g u v
          rw [Function.update_noteq hv, Function.update_noteq hun]
          exact heq
    · intro v hv
      by_cases hveq : v = nb
      · rw [hveq] at hv
        rw [show (Function.update dp.1 nb (dp.1 current + g current nb),
            Function.update dp.2 nb (some current)).1 nb
            = dp.1 current + g current nb from Function.update_same _ _ _] at hv
        exact absurd hv (ne_top_of_lt hlt)
      · replace hv : dp.1 v = ⊤ := by
          rw [show (Function.update dp.1 nb (dp.1 current + g current nb),
              Function.update dp.2 nb (some current)).1 v = dp.1 v from
            Function.update_noteq hveq _ _] at hv
          exact hv
        show Function.update dp.2 nb _ v = none
        rw [Function.update_noteq hveq]
        exact hJ.pred_none v hv
    · obtain ⟨r, hr⟩ := hJ.rank
      refine ⟨Function.update r nb (r current + 1), ?_⟩
      intro v u hp
      by_cases hv : v = nb
      · rw [hv] at hp
        replace hp : some current = some u := by
          rw [show (Function.update dp.1 nb (dp.1 current + g current nb),
              Function.update dp.2 nb (some current)).2 nb = some current from
            Function.update_same _ _ _] at hp
          exact hp
        obtain rfl : current = u := Option.some.inj hp
        rw [hv, Function.update_noteq (Ne.symm hnbc), Function.update_same]
        exact Nat.lt_succ_self _
      · replace hp : dp.2 v = some u := by
          rw [show (Function.update dp.1 nb (dp.1 current + g current nb),
              Function.update dp.2 nb (some current)).2 v = dp.2 v from
            Function.update_noteq hv _ _] at hp
          exact hp
        have hvs : v ≠ s := by
          intro h
          subst h
          rw [hJ.pred_s] at hp
          exact Option.noConfusion hp
        have hvfin : dp.1 v ≠ ⊤ := by
          intro h
          rw [hJ.pred_none v h] at hp
          exact Option.noConfusion hp
        obtain ⟨u2, hpu2, hu2, _, _⟩ := hJ.pred_spec v hvs hvfin
        obtain rfl : u = u2 := by
          rw [hp] at hpu2
          exact Option.some.inj hpu2
        have hun : u ≠ nb := fun he => hu2 (he ▸ hnb1)
        rw [Function.update_noteq hun, Function.update_noteq hv]
        exact hr v u hp
  · exact hJ
  · exact hJ

theorem dijkstraVisit_dinv (g : Fin n → Fin n → WithTop α) (s : Fin n)
    (hw : ∀ i j, (0 : WithTop α) ≤ g i j) (st : DState α n)
    (h : st.unvisited.Nonempty) (hI : DInv g s st) :
    DInv g s (dijkstraVisit g st h) := by
  have hcm := selectMin_mem st.dist st.unvisited h
  have hmin := selectMin_min st.dist st.unvisited h
  have hJ0 : RelaxInv g s st.dist
      (st.unvisited.erase (selectMin st.dist st.unvisited h)) (st.dist, st.pred) := by
    refine ⟨hI.dist_s, hI.pred_s, hI.nonneg, fun u _ => rfl, ?_, ?_, hI.pred_none, hI.rank⟩
    · intro u hu x hx
      have hx0 : x ∈ st.unvisited := Finset.mem_of_mem_erase hx
      by_cases huc : u = selectMin st.dist st.unvisited h
      · subst huc
        exact hmin x hx0
      · have hu0 : u ∉ st.unvisited := fun hm => hu (Finset.mem_erase.2 ⟨huc, hm⟩)
        exact hI.popped_le u hu0 x hx0
    · intro v hvs hvf
      obtain ⟨u, h1, h2, h3, h4⟩ := hI.pred_spec v hvs hvf
      exact ⟨u, h1, fun hm => h2 (Finset.mem_of_mem_erase hm), h3, h4⟩
  have hJ : RelaxInv g s st.dist
      (st.unvisited.erase (selectMin st.dist st.unvisited h))
      (relaxAll g (selectMin st.dist st.unvisited h) (st.dist, st.pred)) :=
    foldl_preserve _ _
      (fun dp nb hdp =>
        relaxStep_dinv g s (selectMin st.dist st.unvisited h) hw st.dist st.unvisited
          hcm hmin hI.popped_le dp nb hdp)
      (List.finRange n) _ hJ0
  exact ⟨hJ.dist_s, hJ.pred_s, hJ.nonneg, hJ.popped_le, hJ.pred_spec, hJ.pred_none, hJ.rank⟩

theorem dijkstraInit_dinv (g : Fin n → Fin n → WithTop α) (s : Fin n) :
    DInv g s (dijkstraInit s : DState α n) := by
  refine ⟨?_, rfl, ?_, ?_, ?_, fun v _ => rfl, fun _ => 0, fun v u hp => Option.noConfusion hp⟩
  · show Function.update (fun _ => (⊤ : WithTop α)) s 0 s = 0
    rw [Function.update_same]
  · intro v
    show (0 : WithTop α) ≤ Function.update (fun _ => (⊤ : WithTop α)) s 0 v
    by_cases hv : v = s
    · subst hv
      rw [Function.update_same]
    · rw [Function.update_noteq hv]
      exact le_top
  · intro u hu x hx
    exact absurd (Finset.mem_univ u) hu
  · intro v hvs hvf
    exfalso
    apply hvf
    show Function.update (fun _ => (⊤ : WithTop α)) s 0 v = ⊤
    rw [Function.update_noteq hvs]

theorem DInv_predPath (g : Fin n → Fin n → WithTop α) (s : Fin n) (st : DState α n)
    (hI : DInv g s st) : ∀ v, st.dist v ≠ ⊤ → PredPath g st.pred s v (st.dist v) := by
  obtain ⟨r, hr⟩ := hI.rank
  suffices H : ∀ k v, r v < k → st.dist v ≠ ⊤ → PredPath g st.pred s v (st.dist v) from
    fun v hv => H (r v + 1) v (Nat.lt_succ_self _) hv
  intro k
  induction k with
  | zero => exact fun v hv => absurd hv (Nat.not_lt_zero _)
  | succ k ih =>
    intro v hvk hfin
    by_cases hvs : v = s
    · subst hvs
      rw [hI.dist_s]
      exact PredPath.source
    · obtain ⟨u, hpu, _, hedge, heq⟩ := hI.pred_spec v hvs hfin
      have hufin : st.dist u ≠ ⊤ := by
        intro hu
        rw [hu, top_add] at heq
        exact hfin heq
      have hru : r u < r v := hr v u hpu
      have hp := PredPath.step (ih u (by omega) hufin) hpu hedge
      rwa [← heq] at hp

/-- Claim C1: for every graph with non-negative weights and every source
`s`, every vertex `v` with a finite final distance has its predecessor
chain retrace an actual path of the graph from `s` to `v` whose summed
edge weights equal `distance[v]`; the chain stops at `s`, whose
predecessor entry stays `None`. -/
theorem dijkstra_chemin_predecesseur (g : Fin n → Fin n → WithTop α)
    (hw : ∀ i j, (0 : WithTop α) ≤ g i j) (s v : Fin n)
    (hfin : (dijkstraFinal g s).dist v ≠ ⊤) :
    (dijkstraFinal g s).pred s = none ∧
    PredPath g (dijkstraFinal g s).pred s v ((dijkstraFinal g s).dist v) := by
  have hI : DInv g s (dijkstraFinal g s) :=
    dijkstraLoop_preserve g (DInv g s)
      (fun st h hI => dijkstraVisit_dinv g s hw st h hI) n _ (dijkstraInit_dinv g s)
  exact ⟨hI.pred_s, DInv_predPath g s _ hI v hfin⟩

/-- Witness for C1 on the two-vertex graph with the single edge `0 → 1`. -/
theorem dijkstra_chemin_predecesseur_witness :
    (∀ i j : Fin 2, (0 : WithTop ℤ) ≤ matEdge2 i j) ∧
    (dijkstraFinal matEdge2 0).dist 1 ≠ ⊤ ∧
    ((dijkstraFinal matEdge2 0).pred 0 = none ∧
      PredPath matEdge2 (dijkstraFinal matEdge2 0).pred 0 1 ((dijkstraFinal matEdge2 0).dist 1)) :=
  ⟨by decide, by decide, dijkstra_chemin_predecesseur matEdge2 (by decide) 0 1 (by decide)⟩

end ClaimsDijkstra

section ClaimsConnexe

open GrapheValue AlgoDijkstra

variable {α : Type} [LinearOrderedAddCommMonoid α] {n : ℕ}

theorem mem_take_finRange {k : ℕ} {t : Fin n} (h : t ∈ (List.finRange n).take k) :
    t.val < k := by
  obtain ⟨i, hi, hget⟩ := List.mem_iff_getElem.1 h
  have hlen : i < k := by
    simp only [List.length_take, List.length_finRange, lt_min_iff] at hi
    omega
  rw [List.getElem_take, List.getElem_finRange] at hget
  have hv : t.val = i := by
    rw [← hget]
    rfl
  omega

theorem cc_sommet_mem_cc_graphe (g : Fin n → Fin n → WithTop α) (s : Fin n) :
    cc_sommet g s ∈ cc_graphe g := by
  suffices H : ∀ (k : ℕ) (s : Fin n), s.val < k → cc_sommet g s ∈ cc_graphe g from
    H (s.val + 1) s (Nat.lt_succ_self _)
  intro k
  induction k with
  | zero => exact fun s hs => absurd hs (Nat.not_lt_zero _)
  | succ k ih =>
    intro s hs
    by_cases hP :
        (((List.finRange n).take s.val).map (cc_sommet g)).count (cc_sommet g s) < 1
    · refine List.mem_map_of_mem (cc_sommet g) ?_
      exact List.mem_filter.2 ⟨List.mem_finRange s, by simpa using hP⟩
    · push_neg at hP
      have hmem : cc_sommet g s ∈ ((List.finRange n).take s.val).map (cc_sommet g) :=
        List.count_pos_iff.1 (by omega)
      obtain ⟨t, ht, heq⟩ := List.mem_map.1 hmem
      have htlt : t.val < s.val := mem_take_finRange ht
      have hmem2 := ih t (by omega)
      rwa [heq] at hmem2

theorem self_mem_cc_sommet (g : Fin n → Fin n → WithTop α) (s : Fin n) :
    s ∈ cc_sommet g s := by
  unfold cc_sommet cfc_sommet
  exact Finset.mem_union_right _ (Finset.mem_singleton_self s)

/-- Claim C7: the connectivity test answers true exactly when the component
list has exactly one element, and a single component covers all `n`
vertices. -/
theorem est_connexe_ssi (g : Fin n → Fin n → WithTop α) :
    (est_connexe g = true ↔ (cc_graphe g).length = 1) ∧
    (∀ c, cc_graphe g = [c] → c.card = n) := by
  constructor
  · unfold est_connexe
    exact beq_iff_eq
  · intro c hc
    have hall : ∀ s : Fin n, s ∈ c := by
      intro s
      have hmem := cc_sommet_mem_cc_graphe g s
      rw [hc, List.mem_singleton] at hmem
      rw [← hmem]
      exact self_mem_cc_sommet g s
    rw [Finset.eq_univ_iff_forall.2 hall, Finset.card_univ, Fintype.card_fin]

/-- Witness for C7 on the 7-vertex demo graph, whose component list is the
single set of all seven vertices. -/
theorem est_connexe_ssi_witness :
    cc_graphe matG7 = [(Finset.univ : Finset (Fin 7))] ∧
    (est_connexe matG7 = true ↔ (cc_graphe matG7).length = 1) ∧
    (Finset.univ : Finset (Fin 7)).card = 7 :=
  ⟨by decide, (est_connexe_ssi matG7).1,
    (est_connexe_ssi matG7).2 Finset.univ (by decide)⟩

end ClaimsConnexe

section ClaimsDiametre

open GrapheValue AlgoDijkstra ReseauSocial

variable {α : Type} [LinearOrderedAddCommMonoid α] {n : ℕ}

theorem foldl_max_init {β : Type} [LinearOrder β] :
    ∀ (l : List β) (b : β), b ≤ l.foldl max b
  | [], _ => le_refl _
  | a :: l, b => le_trans (le_max_left b a) (foldl_max_init l (max b a))

theorem foldl_max_le {β : Type} [LinearOrder β] :
    ∀ (l : List β) (b x : β), x ∈ l → x ≤ l.foldl max b
  | a :: l, b, x, hx => by
      rcases List.mem_cons.1 hx with rfl | hx
      · exact le_trans (le_max_right b x) (foldl_max_init l (max b x))
      · exact foldl_max_le l (max b a) x hx

theorem foldl_max_cases {β : Type} [LinearOrder β] :
    ∀ (l : List β) (b : β), l.foldl max b = b ∨ l.foldl max b ∈ l
  | [], _ => Or.inl rfl
  | a :: l, b => by
      rcases foldl_max_cases l (max b a) with h | h
      · rcases max_choice b a with hm | hm
        · exact Or.inl (by rw [List.foldl_cons, h, hm])
        · exact Or.inr (by rw [List.foldl_cons, h, hm]; exact List.mem_cons_self a l)
      · exact Or.inr (List.mem_cons_of_mem a h)

theorem diametre_eq (g : Fin n → Fin n → WithTop α) :
    diametre g =
      ((List.finRange n).map
        (fun s => ((calculPCCSommet g s).1).max?.getD 0)).foldl max 0 := by
  rw [diametre, List.foldl_map]

theorem wmax_cons {β : Type} [Max β] (a : β) (l : List β) :
    (a :: l).max? = some (l.foldl max a) :=
  rfl

theorem row_max_spec {m : ℕ} (g : Fin (m + 1) → Fin (m + 1) → WithTop α)
    (s : Fin (m + 1)) :
    (∀ v, (dijkstraFinal g s).dist v ≤ ((calculPCCSommet g s).1).max?.getD 0) ∧
    (∃ v, ((calculPCCSommet g s).1).max?.getD 0 = (dijkstraFinal g s).dist v) := by
  have hrow : (calculPCCSommet g s).1 = List.ofFn (dijkstraFinal g s).dist := rfl
  rw [hrow, List.ofFn_succ, wmax_cons, Option.getD_some]
  constructor
  · intro v
    have hv : (dijkstraFinal g s).dist v ∈ List.ofFn (dijkstraFinal g s).dist :=
      (List.mem_ofFn _ _).2 ⟨v, rfl⟩
    rw [List.ofFn_succ] at hv
    rcases List.mem_cons.1 hv with h | h
    · rw [h]
      exact foldl_max_init _ _
    · exact foldl_max_le _ _ _ h
  · rcases foldl_max_cases (List.ofFn fun i => (dijkstraFinal g s).dist i.succ)
        ((dijkstraFinal g s).dist 0) with h | h
    · exact ⟨0, h⟩
    · obtain ⟨i, hi⟩ := (List.mem_ofFn _ _).1 h
      exact ⟨i.succ, hi.symm⟩

/-- Claim C5 (amended): the diameter is the maximum, over all ordered vertex
pairs, of the full distance matrix with `inf` entries included (floored at
the initial accumulator 0): every entry bounds below it, its value is 0 or
an actual entry, and it is the `inf` sentinel exactly when some entry is
`inf` — on a graph with mutually unreachable pairs it is not finite. -/
theorem diametre_spec (g : Fin n → Fin n → WithTop α) :
    (∀ s v : Fin n, (dijkstraFinal g s).dist v ≤ diametre g) ∧
    (diametre g = 0 ∨ ∃ s v : Fin n, diametre g = (dijkstraFinal g s).dist v) ∧
    (diametre g = ⊤ ↔ ∃ s v : Fin n, (dijkstraFinal g s).dist v = ⊤) := by
  rcases Nat.eq_zero_or_pos n with hn | hn
  · subst hn
    refine ⟨fun s => s.elim0, Or.inl ?_, ?_⟩
    · simp [diametre, List.finRange_zero]
    · constructor
      · intro h
        rw [show diametre g = 0 from by simp [diametre, List.finRange_zero]] at h
        exact absurd h WithTop.zero_ne_top
      · rintro ⟨s, -, -⟩
        exact s.elim0
  · obtain ⟨m, rfl⟩ : ∃ m, n = m + 1 := ⟨n - 1, by omega⟩
    have hA : ∀ s v : Fin (m + 1), (dijkstraFinal g s).dist v ≤ diametre g := by
      intro s v
      refine le_trans ((row_max_spec g s).1 v) ?_
      rw [diametre_eq]
      exact foldl_max_le _ _ _ (List.mem_map_of_mem _ (List.mem_finRange s))
    have hB : diametre g = 0 ∨ ∃ s v : Fin (m + 1),
        diametre g = (dijkstraFinal g s).dist v := by
      rw [diametre_eq]
      rcases foldl_max_cases
          ((List.finRange (m + 1)).map
            (fun s => ((calculPCCSommet g s).1).max?.getD 0)) 0 with h | h
      · exact Or.inl h
      · right
        obtain ⟨s, -, hs⟩ := List.mem_map.1 h
        obtain ⟨v, hv⟩ := (row_max_spec g s).2
        exact ⟨s, v, by rw [← hs, hv]⟩
    refine ⟨hA, hB, ?_, ?_⟩
    · intro htop
      rcases hB with h0 | ⟨s, v, hsv⟩
      · rw [h0] at htop
        exact absurd htop WithTop.zero_ne_top
      · exact ⟨s, v, by rw [← hsv]; exact htop⟩
    · rintro ⟨s, v, hsv⟩
      exact top_le_iff.1 (hsv ▸ hA s v)

/-- Counterexample for C5 as frozen: on the edgeless two-vertex graph the
diameter is the `inf` sentinel, not the maximum (0) of the finite entries. -/
theorem diametre_contre : diametre matDisc2 = ⊤ ∧ diametre matDisc2 ≠ 0 := by
  constructor
  · decide
  · decide

end ClaimsDiametre

section ClaimsPGCC

open GrapheValue

variable {α : Type} [LinearOrderedAddCommMonoid α] {n : ℕ}

theorem pgVerts_nodup (g : Fin (n + 1) → Fin (n + 1) → WithTop α) :
    (pgVerts g).Nodup :=
  List.Nodup.filter _ (List.nodup_finRange _)

theorem mem_pgVerts (g : Fin (n + 1) → Fin (n + 1) → WithTop α) (v : Fin (n + 1)) :
    v ∈ pgVerts g ↔ v ∈ pgComp g := by
  simp [pgVerts, List.mem_filter]

theorem pgVerts_length (g : Fin (n + 1) → Fin (n + 1) → WithTop α) :
    (pgVerts g).length = (pgComp g).card := by
  have ht : (pgVerts g).toFinset = pgComp g := by
    ext v
    simp [List.mem_toFinset, mem_pgVerts]
  rw [← ht, List.toFinset_card_of_nodup (pgVerts_nodup g)]

theorem vertMap_mem_pgVerts (g : Fin (n + 1) → Fin (n + 1) → WithTop α)
    (a : Fin (plus_grosse_cc g).n) : vertMap g a ∈ pgVerts g := by
  unfold vertMap
  rw [List.get_eq_getElem]
  exact List.getElem_mem _

theorem vertMap_mem (g : Fin (n + 1) → Fin (n + 1) → WithTop α)
    (a : Fin (plus_grosse_cc g).n) : vertMap g a ∈ pgComp g :=
  (mem_pgVerts g _).1 (vertMap_mem_pgVerts g a)

theorem vertMap_indexOf (g : Fin (n + 1) → Fin (n + 1) → WithTop α)
    (a : Fin (plus_grosse_cc g).n) : (pgVerts g).indexOf (vertMap g a) = a.val := by
  unfold vertMap
  rw [List.get_indexOf (pgVerts_nodup g)]
  rfl

theorem indexOf_pg_inj (g : Fin (n + 1) → Fin (n + 1) → WithTop α)
    {succ : Fin (n + 1)} (hs : succ ∈ pgComp g) {b : Fin (plus_grosse_cc g).n}
    (hidx : (pgVerts g).indexOf succ = b.val) : succ = vertMap g b := by
  have hmem : succ ∈ pgVerts g := (mem_pgVerts g succ).2 hs
  have hlt : (pgVerts g).indexOf succ < (pgVerts g).length :=
    List.indexOf_lt_length.2 hmem
  have hget := List.indexOf_get hlt
  rw [← hget]
  unfold vertMap
  congr 1
  exact Fin.ext hidx

theorem inner_cell (g : Fin (n + 1) → Fin (n + 1) → WithTop α) (old : Fin (n + 1))
    (a b : Fin (plus_grosse_cc g).n) :
    ∀ (l : List (Fin (n + 1)))
      (m : Fin (plus_grosse_cc g).n → Fin (plus_grosse_cc g).n → WithTop α),
      (l.foldl
        (fun m succ =>
          if succ ∈ pgComp g then
            writeCell m ((pgVerts g).indexOf old) ((pgVerts g).indexOf succ) (g old succ)
          else m)
        m) a b
      = if vertMap g b ∈ l ∧ (pgVerts g).indexOf old = a.val
        then g old (vertMap g b) else m a b := by
  intro l
  induction l with
  | nil => intro m; simp
  | cons succ l ih =>
    intro m
    rw [List.foldl_cons, ih]
    by_cases hc : vertMap g b ∈ l ∧ (pgVerts g).indexOf old = a.val
    · rw [if_pos hc, if_pos ⟨List.mem_cons_of_mem _ hc.1, hc.2⟩]
    · rw [if_neg hc]
      by_cases hspg : succ ∈ pgComp g
      · rw [if_pos hspg]
        rw [show writeCell m ((pgVerts g).indexOf old) ((pgVerts g).indexOf succ)
              (g old succ) a b
            = if a.val = (pgVerts g).indexOf old ∧ b.val = (pgVerts g).indexOf succ
              then g old succ else m a b from rfl]
        by_cases hw : a.val = (pgVerts g).indexOf old ∧ b.val = (pgVerts g).indexOf succ
        · rw [if_pos hw]
          have hsvb : succ = vertMap g b := indexOf_pg_inj g hspg hw.2.symm
          rw [if_pos ⟨by rw [← hsvb]; exact List.mem_cons_self _ _, hw.1.symm⟩, hsvb]
        · rw [if_neg hw]
          have hnc : ¬(vertMap g b ∈ succ :: l ∧ (pgVerts g).indexOf old = a.val) := by
            rintro ⟨hmem, hidx⟩
            rcases List.mem_cons.1 hmem with heq | hmem2
            · exact hw ⟨hidx.symm, by rw [← heq, vertMap_indexOf]⟩
            · exact hc ⟨hmem2, hidx⟩
          rw [if_neg hnc]
      · rw [if_neg hspg]
        have hnc : ¬(vertMap g b ∈ succ :: l ∧ (pgVerts g).indexOf old = a.val) := by
          rintro ⟨hmem, hidx⟩
          rcases List.mem_cons.1 hmem with heq | hmem2
          · exact hspg (heq ▸ vertMap_mem g b)
          · exact hc ⟨hmem2, hidx⟩
        rw [if_neg hnc]

theorem outer_cell (g : Fin (n + 1) → Fin (n + 1) → WithTop α)
    (a b : Fin (plus_grosse_cc g).n) :
    ∀ (l : List (Fin (n + 1))), (∀ x ∈ l, x ∈ pgComp g) →
      ∀ (m : Fin (plus_grosse_cc g).n → Fin (plus_grosse_cc g).n → WithTop α),
      (l.foldl
        (fun m old =>
          (successeurs g old).foldl
            (fun m succ =>
              if succ ∈ pgComp g then
                writeCell m ((pgVerts g).indexOf old) ((pgVerts g).indexOf succ) (g old succ)
              else m)
            m)
        m) a b
      = if vertMap g a ∈ l ∧ vertMap g b ∈ successeurs g (vertMap g a)
        then g (vertMap g a) (vertMap g b) else m a b := by
  intro l
  induction l with
  | nil => intro hl m; simp
  | cons old l ih =>
    intro hl m
    rw [List.foldl_cons, ih (fun x hx => hl x (List.mem_cons_of_mem _ hx))]
    by_cases hc : vertMap g a ∈ l ∧ vertMap g b ∈ successeurs g (vertMap g a)
    · rw [if_pos hc, if_pos ⟨List.mem_cons_of_mem _ hc.1, hc.2⟩]
    · rw [if_neg hc, inner_cell]
      by_cases hova : old = vertMap g a
      · subst hova
        by_cases hedge : vertMap g b ∈ successeurs g (vertMap g a)
        · rw [if_pos ⟨hedge, vertMap_indexOf g a⟩,
            if_pos ⟨List.mem_cons_self _ _, hedge⟩]
        · rw [if_neg (fun h => hedge h.1), if_neg (fun h => hedge h.2)]
      · have hidxne : (pgVerts g).indexOf old ≠ a.val := by
          intro h
          exact hova (indexOf_pg_inj g (hl old (List.mem_cons_self _ _)) h)
        rw [if_neg (fun h => hidxne h.2)]
        have hnc : ¬(vertMap g a ∈ old :: l ∧
            vertMap g b ∈ successeurs g (vertMap g a)) := by
          rintro ⟨hmem, hedge⟩
          rcases List.mem_cons.1 hmem with heq | hmem2
          · exact hova heq.symm
          · exact hc ⟨hmem2, hedge⟩
        rw [if_neg hnc]

theorem plus_grosse_cc_matrice (g : Fin (n + 1) → Fin (n + 1) → WithTop α)
    (a b : Fin (plus_grosse_cc g).n) :
    (plus_grosse_cc g).matrice a b = g (vertMap g a) (vertMap g b) := by
  have h := outer_cell g a b (pgVerts g) (fun x hx => (mem_pgVerts g x).1 hx)
    (fun _ _ => ⊤)
  have hmat : (plus_grosse_cc g).matrice a b
      = ((pgVerts g).foldl
          (fun m old =>
            (successeurs g old).foldl
              (fun m succ =>
                if succ ∈ pgComp g then
                  writeCell m ((pgVerts g).indexOf old) ((pgVerts g).indexOf succ)
                    (g old succ)
                else m)
              m)
          (fun _ _ => ⊤)) a b := rfl
  rw [hmat, h]
  by_cases hedge : vertMap g b ∈ successeurs g (vertMap g a)
  · rw [if_pos ⟨vertMap_mem_pgVerts g a, hedge⟩]
  · rw [if_neg (fun hx => hedge hx.2)]
    have htop : g (vertMap g a) (vertMap g b) = ⊤ := by
      by_contra hne
      exact hedge (List.mem_filter.2 ⟨List.mem_finRange _, by simpa using hne⟩)
    rw [htop]

theorem maxFold_le {k : ℕ} :
    ∀ (l : List (Finset (Fin k))) (best : Finset (Fin k)),
      best.card ≤ (l.foldl (fun best c => if best.card < c.card then c else best) best).card ∧
      ∀ c ∈ l, c.card ≤ (l.foldl (fun best c => if best.card < c.card then c else best) best).card
  | [], best => ⟨le_refl _, fun c hc => absurd hc (List.not_mem_nil c)⟩
  | a :: l, best => by
      rw [List.foldl_cons]
      have ih := maxFold_le l (if best.card < a.card then a else best)
      constructor
      · refine le_trans ?_ ih.1
        split_ifs with h
        · omega
        · exact le_refl _
      · intro c hc
        rcases List.mem_cons.1 hc with rfl | hc2
        · refine le_trans ?_ ih.1
          split_ifs with h
          · exact le_refl _
          · omega
        · exact ih.2 c hc2

theorem maxFold_mem {k : ℕ} :
    ∀ (l : List (Finset (Fin k))) (best : Finset (Fin k)),
      l.foldl (fun best c => if best.card < c.card then c else best) best = best ∨
      l.foldl (fun best c => if best.card < c.card then c else best) best ∈ l
  | [], _ => Or.inl rfl
  | a :: l, best => by
      rw [List.foldl_cons]
      by_cases hb : best.card < a.card
      · rw [if_pos hb]
        rcases maxFold_mem l a with h | h
        · exact Or.inr (by rw [h]; exact List.mem_cons_self a l)
        · exact Or.inr (List.mem_cons_of_mem a h)
      · rw [if_neg hb]
        rcases maxFold_mem l best with h | h
        · exact Or.inl h
        · exact Or.inr (List.mem_cons_of_mem a h)

/-- Claim C8: for every non-empty graph, the extracted largest component is
a member of the component list of maximal size, the new graph has exactly
that many vertices, and each cell of the new matrix carries the original
weight between the corresponding original vertices (edges inside the
component are copied with identical weights, everything else stays `inf`,
which also drops edges to non-members). -/
theorem plus_grosse_cc_spec (g : Fin (n + 1) → Fin (n + 1) → WithTop α) :
    (plus_grosse_cc g).n = (pgComp g).card ∧
    pgComp g ∈ cc_graphe g ∧
    (∀ c ∈ cc_graphe g, c.card ≤ (pgComp g).card) ∧
    ∀ a b : Fin (plus_grosse_cc g).n,
      (plus_grosse_cc g).matrice a b = g (vertMap g a) (vertMap g b) := by
  refine ⟨pgVerts_length g, ?_, ?_, plus_grosse_cc_matrice g⟩
  · rcases maxFold_mem (cc_graphe g) ∅ with h | h
    · exfalso
      have h0 := cc_sommet_mem_cc_graphe g 0
      have hle := (maxFold_le (cc_graphe g) ∅).2 _ h0
      rw [h, Finset.card_empty] at hle
      have hpos : 0 < (cc_sommet g 0).card :=
        Finset.card_pos.2 ⟨0, self_mem_cc_sommet g 0⟩
      omega
    · exact h
  · intro c hc
    exact (maxFold_le (cc_graphe g) ∅).2 c hc

/-- Witness for C8 on the 4-vertex graph with a unit triangle `0-1-2` and
the isolated vertex `3`. -/
theorem plus_grosse_cc_spec_witness :
    (plus_grosse_cc matTri4).n = (pgComp matTri4).card ∧
    pgComp matTri4 ∈ cc_graphe matTri4 ∧
    ({3} : Finset (Fin 4)) ∈ cc_graphe matTri4 ∧
    ({3} : Finset (Fin 4)).card ≤ (pgComp matTri4).card :=
  ⟨(plus_grosse_cc_spec matTri4).1, (plus_grosse_cc_spec matTri4).2.1, by decide,
   (plus_grosse_cc_spec matTri4).2.2.1 {3} (by decide)⟩

end ClaimsPGCC

section BfsFuel

open GrapheValue

variable {α : Type} [LinearOrderedAddCommMonoid α] {n : ℕ}

theorem bfsPush_measure :
    ∀ (l : List (Fin n)) (dp : List (Fin n) × Finset (Fin n)),
      (l.foldl bfsPush dp).1.length + (Finset.univ \ (l.foldl bfsPush dp).2).card
        = dp.1.length + (Finset.univ \ dp.2).card
  | [], _ => rfl
  | v :: l, dp => by
      rw [List.foldl_cons, bfsPush_measure l]
      unfold bfsPush
      split_ifs with hv
      · rfl
      · have hvs : v ∈ Finset.univ \ dp.2 :=
          Finset.mem_sdiff.2 ⟨Finset.mem_univ v, hv⟩
        have hpos : 0 < (Finset.univ \ dp.2).card := Finset.card_pos.2 ⟨v, hvs⟩
        have hins : Finset.univ \ insert v dp.2 = (Finset.univ \ dp.2).erase v :=
          Finset.sdiff_insert _ _ _
        dsimp only
        rw [hins, Finset.card_erase_of_mem hvs, List.length_append, List.length_singleton]
        omega

/-- Within the fuel actually supplied (`n + 1` at the call sites, at least
the initial queue length plus the number of never-visited vertices), the
breadth-first loop result no longer depends on the fuel: the loop exits
through its own `while len(file) > 0` condition. -/
theorem bfsLoop_drains (next : Fin n → List (Fin n)) :
    ∀ (fuel : ℕ) (file : List (Fin n)) (descs : Finset (Fin n)),
      file.length + (Finset.univ \ descs).card ≤ fuel →
      bfsLoop next fuel file descs = bfsLoop next (fuel + 1) file descs
  | 0, file, descs, hle => by
      have hf : file = [] := List.length_eq_zero.1 (by omega)
      subst hf
      rw [bfsLoop, bfsLoop]
  | fuel + 1, [], descs, _ => by
      rw [bfsLoop, bfsLoop]
  | fuel + 1, scour :: file, descs, hle => by
      rw [bfsLoop]
      conv =>
        rhs
        rw [bfsLoop]
      apply bfsLoop_drains
      have hm := bfsPush_measure (next scour) (file, descs)
      dsimp only at hm
      simp only [List.length_cons] at hle
      omega

end BfsFuel
